import Mathlib

/-!
Shallow embedding of the chunking-and-concurrent-formatting pipeline of
`src/app.py` (Panopto transcript extractor + formatter).

Python strings are modelled as `List Char`.  Python slice semantics
(`s[:n]` and `s[n:]`, including negative bounds and clamping),
`str.rfind` restricted to the two-character needle of two newlines,
`str.lstrip`, `str.strip` and `str.join` are modelled directly from
their Python behaviour.  The `while` loop of `split_transcript` is
modelled with explicit fuel: fuel `t.length + 1` is proved sufficient
whenever `max_chars >= 1`, and a `none` result marks a run of the loop
that has not terminated within the given fuel.  The
`ThreadPoolExecutor` / `as_completed` dispatcher of `process_chunks` is
modelled by an explicit arrival order (the order in which
`as_completed` yields the futures) together with the CPython
precondition that `ThreadPoolExecutor(max_workers=w)` requires `w > 0`;
the bounded worker pool itself is modelled as a step relation for the
concurrency claims.
-/

/-- Whitespace characters as stripped by Python `str.lstrip()` /
`str.strip()` (the ASCII portion, which covers every character the
pipeline can produce around paragraph delimiters). -/
def isPySpace (c : Char) : Bool :=
  c == ' ' || c == '\t' || c == '\n' || c == '\r' || c == '\x0b' || c == '\x0c'

/-- Resolve a Python slice bound `n` against the list `t`: a
nonnegative bound counts from the front, a negative bound counts from
the back; `Nat` truncated subtraction gives exactly Python's clamping
of an out-of-range negative bound to `0`. -/
def pyIdx (t : List Char) (n : Int) : Nat :=
  if 0 ≤ n then n.toNat else t.length - (-n).toNat

/-- Python `t[:n]`. -/
def pySliceTo (t : List Char) (n : Int) : List Char :=
  t.take (pyIdx t n)

/-- Python `t[n:]`. -/
def pySliceFrom (t : List Char) (n : Int) : List Char :=
  t.drop (pyIdx t n)

/-- Python `t.lstrip()`. -/
def pyLstrip (t : List Char) : List Char :=
  t.dropWhile isPySpace

/-- Python `t.strip()`. -/
def pyStrip (t : List Char) : List Char :=
  ((t.dropWhile isPySpace).reverse.dropWhile isPySpace).reverse

/-- True when the list starts with a newline character. -/
def startsNl : List Char → Bool
  | '\n' :: _ => true
  | _ => false

/-- Python `chunk.rfind("\n\n")` from line 23 of `src/app.py`: the
index of the last occurrence of two consecutive newlines, `none`
standing for Python's `-1`. -/
def rfind2 : List Char → Option Nat
  | [] => none
  | c :: cs =>
    match rfind2 cs with
    | some i => some (i + 1)
    | none => if c == '\n' && startsNl cs then some 0 else none

/-- The value of `last_split` computed by one iteration of the loop in
`split_transcript` (lines 22-25 of `src/app.py`): the last paragraph
delimiter inside the window `transcript[:max_chars]`, or `max_chars`
itself when the window holds no delimiter. -/
def lastSplitOf (t : List Char) (maxChars : Int) : Int :=
  match rfind2 (pySliceTo t maxChars) with
  | some i => (i : Int)
  | none => maxChars

/-- The chunk appended by one loop iteration: `transcript[:last_split]`
(line 26 of `src/app.py`). -/
def splitStepPiece (t : List Char) (maxChars : Int) : List Char :=
  pySliceTo t (lastSplitOf t maxChars)

/-- The remaining transcript after one loop iteration:
`transcript[last_split:].lstrip()` (line 27 of `src/app.py`). -/
def splitStepRest (t : List Char) (maxChars : Int) : List Char :=
  pyLstrip (pySliceFrom t (lastSplitOf t maxChars))

/-- The `while transcript:` loop of `split_transcript` (lines 21-27 of
`src/app.py`), with explicit fuel; `none` marks fuel exhaustion, i.e. a
run of the Python loop that has not terminated within `fuel`
iterations. -/
def splitTranscriptFuel : Nat → List Char → Int → Option (List (List Char))
  | 0, _, _ => none
  | fuel + 1, t, maxChars =>
    if t = [] then some []
    else
      (splitTranscriptFuel fuel (splitStepRest t maxChars) maxChars).map
        (fun cs => splitStepPiece t maxChars :: cs)

/-- `split_transcript` of `src/app.py` (lines 19-28).  Fuel
`t.length + 1` is sufficient whenever `maxChars >= 1` (each iteration
strictly shortens the remaining transcript), so for a positive bound
this returns `some` of the chunk list; a `none` result means the Python
loop does not terminate within a number of iterations that always
suffices for a positive bound. -/
def split_transcript (t : List Char) (maxChars : Int) : Option (List (List Char)) :=
  splitTranscriptFuel (t.length + 1) t maxChars

/-- Exceptions that can escape the dispatcher: the `ValueError` raised
by `ThreadPoolExecutor` for a non-positive `max_workers`, the
`TypeError` raised by `str.join` on a `None` entry, and a provider
exception escaping a worker (`backend`), carrying only the provider's
message - no chunk index. -/
inductive Exc where
  | valueError
  | typeError
  | backend (msg : List Char)
deriving DecidableEq

/-- Python `sep.join(l)` on a list of strings: the entries concatenated
with `sep` between consecutive entries, none before the first or after
the last. -/
def pyJoin (sep : List Char) : List (List Char) → List Char
  | [] => []
  | [t] => t
  | t :: t2 :: ts => t ++ sep ++ pyJoin sep (t2 :: ts)

/-- The separator literal of line 52 of `src/app.py`. -/
def resultSep : List Char := "\n\n---\n\n".toList

/-- Python `sep.join(results)` over the `results` table (line 52 of
`src/app.py`): joins when every slot holds a string, raises `TypeError`
when a slot is still `None`. -/
def pyJoinOpt (sep : List Char) (l : List (Option (List Char))) : Except Exc (List Char) :=
  if l.all Option.isSome then .ok (pyJoin sep (l.map (fun o => o.getD [])))
  else .error .typeError

/-- The `for completed in as_completed(futures)` loop of
`process_chunks` (lines 48-51 of `src/app.py`).  `f j` is the outcome
of the worker submitted for chunk `j` (each worker returns its own
submitted index paired with its text, so the write lands in slot `j`);
the arrival list is the order in which `as_completed` yields the
futures.  `completed.result()` re-raises a worker's exception in the
dispatcher thread, which aborts the loop: the first erroring arrival
escapes as the result. -/
def dispatchLoop (f : Nat → Except Exc (List Char)) :
    List Nat → List (Option (List Char)) → Except Exc (List (Option (List Char)))
  | [], table => .ok table
  | j :: rest, table =>
    match f j with
    | .error e => .error e
    | .ok txt => dispatchLoop f rest (table.set j (some txt))

/-- The state of the `results` list at the moment `process_chunks`
finishes or aborts: same loop as `dispatchLoop`, but returning the
table even when a worker's re-raised exception aborts the loop. -/
def dispatchTable (f : Nat → Except Exc (List Char)) :
    List Nat → List (Option (List Char)) → List (Option (List Char))
  | [], table => table
  | j :: rest, table =>
    match f j with
    | .error _ => table
    | .ok txt => dispatchTable f rest (table.set j (some txt))

/-- `process_chunks` of `src/app.py` (lines 40-52), parametrised by the
arrival order of the futures.  Line 43 constructs
`ThreadPoolExecutor(max_workers=min(5, len(chunks)))`; CPython's
`ThreadPoolExecutor` raises `ValueError` when `max_workers <= 0`, which
happens exactly when `chunks` is empty.  Otherwise the workers run, the
table is filled in arrival order (or the first failure re-raises), and
line 52 joins the table with `resultSep`. -/
def process_chunks (chunks : List (List Char))
    (f : Nat → List Char → Except Exc (List Char)) (arrival : List Nat) :
    Except Exc (List Char) :=
  if chunks.length = 0 then .error .valueError
  else
    match dispatchLoop (fun j => f j (chunks.getD j [])) arrival
        (List.replicate chunks.length none) with
    | .error e => .error e
    | .ok table => pyJoinOpt resultSep table

/-- The final state of the `results` list of a `process_chunks` run
(also for aborted runs), starting from `[None] * len(chunks)`. -/
def process_chunks_table (chunks : List (List Char))
    (f : Nat → List Char → Except Exc (List Char)) (arrival : List Nat) :
    List (Option (List Char)) :=
  dispatchTable (fun j => f j (chunks.getD j [])) arrival
    (List.replicate chunks.length none)

/-- A worker-pool state: how many of the `n` submitted tasks have been
started so far, and how many are currently in flight. -/
structure PoolState where
  started : Nat
  running : Nat
deriving DecidableEq

/-- One scheduling step of a thread pool bounded by `maxW` workers over
`n` submitted tasks: start a not-yet-started task while fewer than
`maxW` run, or finish a running task.  This is the contract of
`concurrent.futures.ThreadPoolExecutor(max_workers=maxW)`. -/
inductive PoolStep (maxW n : Nat) : PoolState → PoolState → Prop
  | start (s : PoolState) (hs : s.started < n) (hr : s.running < maxW) :
      PoolStep maxW n s ⟨s.started + 1, s.running + 1⟩
  | finish (s : PoolState) (hr : 0 < s.running) :
      PoolStep maxW n s ⟨s.started, s.running - 1⟩

/-- Reachability in the pool of `process_chunks`: line 43 of
`src/app.py` creates the executor with `max_workers = min(5, n)` for
`n` chunks. -/
def dispatcherReach (n : Nat) : PoolState → PoolState → Prop :=
  Relation.ReflTransGen (PoolStep (min 5 n) n)

/-- Interleaving concatenation: `joinAlt [c0, c1, ...] [w0, w1, ...]`
is `c0 ++ w0 ++ c1 ++ w1 ++ ...`, used to state which separators the
splitter actually consumed between consecutive chunks. -/
def joinAlt : List (List Char) → List (List Char) → List Char
  | [], _ => []
  | c :: cs, [] => c ++ joinAlt cs []
  | c :: cs, w :: ws => c ++ w ++ joinAlt cs ws

/-- The paragraph delimiter. -/
def nl2 : List Char := "\n\n".toList

/-- The whitespace run consumed by `lstrip` at each chunk boundary:
`splitSepsFuel fuel t m` lists, for each loop iteration of
`split_transcript`, the whitespace that line 27 of `src/app.py` removes
between the appended chunk and the remaining transcript. -/
def splitSepsFuel : Nat → List Char → Int → List (List Char)
  | 0, _, _ => []
  | fuel + 1, t, maxChars =>
    if t = [] then []
    else
      (pySliceFrom t (lastSplitOf t maxChars)).takeWhile isPySpace ::
        splitSepsFuel fuel (splitStepRest t maxChars) maxChars

/-- The whitespace runs consumed between the chunks of
`split_transcript t maxChars` (same fuel as `split_transcript`). -/
def split_seps (t : List Char) (maxChars : Int) : List (List Char) :=
  splitSepsFuel (t.length + 1) t maxChars

/-- A stub formatting worker that succeeds on every chunk, returning
the chunk text unchanged. -/
def stubOk : Nat → List Char → Except Exc (List Char) :=
  fun _ c => .ok c

/-- A pure stub formatter used to instantiate the order-independence
theorem: it returns the chunk text unchanged. -/
def idFmt : Nat → List Char → List Char :=
  fun _ c => c

/-- A stub worker whose backend call fails on chunk 1 with a rate-limit
message and succeeds on every other chunk (the concrete failure
scenario of the spec). -/
def stubFail1 : Nat → List Char → Except Exc (List Char) :=
  fun i c => if i = 1 then .error (.backend "rate limited".toList) else .ok c

/-- A stub worker whose backend call fails on chunk 0 with the same
message as `stubFail1`. -/
def stubFail0 : Nat → List Char → Except Exc (List Char) :=
  fun i c => if i = 0 then .error (.backend "rate limited".toList) else .ok c

/-! ### Helper lemmas about the splitter -/

theorem pySlice_append (t : List Char) (n : Int) :
    pySliceTo t n ++ pySliceFrom t n = t :=
  List.take_append_drop _ _

theorem rfind2_lt_length {l : List Char} {i : Nat} (h : rfind2 l = some i) :
    i < l.length := by
  induction l generalizing i with
  | nil => simp [rfind2] at h
  | cons c cs ih =>
    cases hr : rfind2 cs with
    | some j =>
      simp only [rfind2, hr] at h
      have hj := ih hr
      simp only [Option.some.injEq] at h
      simp only [List.length_cons]
      omega
    | none =>
      simp only [rfind2, hr] at h
      split at h
      · simp only [Option.some.injEq] at h
        simp only [List.length_cons]
        omega
      · simp at h

theorem rfind2_zero {l : List Char} (h : rfind2 l = some 0) :
    ∃ u, l = '\n' :: u := by
  cases l with
  | nil => simp [rfind2] at h
  | cons c cs =>
    cases hr : rfind2 cs with
    | some j => simp [rfind2, hr] at h
    | none =>
      simp only [rfind2, hr] at h
      split at h
      · rename_i hc
        simp only [Bool.and_eq_true, beq_iff_eq] at hc
        exact ⟨cs, by rw [hc.1]⟩
      · simp at h

theorem head_of_take {t u : List Char} {k : Nat} {c : Char}
    (h : t.take k = c :: u) : ∃ v, t = c :: v := by
  cases t with
  | nil => simp at h
  | cons a t₂ =>
    cases k with
    | zero => simp at h
    | succ k =>
      simp only [List.take_succ_cons, List.cons.injEq] at h
      exact ⟨t₂, by rw [h.1]⟩

theorem pyLstrip_length_le (l : List Char) : (pyLstrip l).length ≤ l.length := by
  rw [pyLstrip]
  induction l with
  | nil => simp
  | cons a l ih =>
    rw [List.dropWhile_cons]
    split
    · simp only [List.length_cons]
      omega
    · simp

theorem splitStepRest_shrink (t : List Char) (m : Int) (hm : 1 ≤ m) (ht : t ≠ []) :
    (splitStepRest t m).length < t.length := by
  have hlen : 0 < t.length := List.length_pos.mpr ht
  have hdw : ∀ l : List Char, (pyLstrip l).length ≤ l.length := pyLstrip_length_le
  cases hr : rfind2 (pySliceTo t m) with
  | none =>
    have hls : lastSplitOf t m = m := by simp [lastSplitOf, hr]
    have hidx : pyIdx t m = m.toNat := by
      rw [pyIdx, if_pos (by omega)]
    calc (splitStepRest t m).length
        ≤ (pySliceFrom t (lastSplitOf t m)).length := hdw _
      _ = t.length - m.toNat := by
          rw [hls, pySliceFrom, hidx, List.length_drop]
      _ < t.length := by omega
  | some i =>
    have hls : lastSplitOf t m = (i : Int) := by simp [lastSplitOf, hr]
    cases i with
    | zero =>
      obtain ⟨u, hu⟩ := rfind2_zero hr
      obtain ⟨v, hv⟩ := head_of_take (show t.take (pyIdx t m) = '\n' :: u from hu)
      have hrw : splitStepRest t m = pyLstrip t := by
        rw [splitStepRest, hls]
        simp [pySliceFrom, pyIdx]
      rw [hrw, hv]
      have hstep : pyLstrip ('\n' :: v) = pyLstrip v := by
        unfold pyLstrip
        rw [List.dropWhile_cons]
        norm_num [isPySpace]
      rw [hstep]
      have := hdw v
      simp only [List.length_cons]
      omega
    | succ j =>
      have hidx : pyIdx t ((j + 1 : Nat) : Int) = j + 1 := by
        rw [pyIdx, if_pos (by omega)]
        simp
      calc (splitStepRest t m).length
          ≤ (pySliceFrom t (lastSplitOf t m)).length := hdw _
        _ = t.length - (j + 1) := by
            rw [hls, pySliceFrom, hidx, List.length_drop]
        _ < t.length := by omega

theorem splitFuel_isSome {m : Int} (hm : 1 ≤ m) :
    ∀ fuel t, t.length < fuel → (splitTranscriptFuel fuel t m).isSome := by
  intro fuel
  induction fuel with
  | zero => intro t h; omega
  | succ n ih =>
    intro t h
    by_cases ht : t = []
    · simp [splitTranscriptFuel, ht]
    · have hs := splitStepRest_shrink t m hm ht
      have h2 := ih (splitStepRest t m) (by omega)
      rcases Option.isSome_iff_exists.mp h2 with ⟨r, hr⟩
      simp only [splitTranscriptFuel, if_neg ht, hr, Option.map_some']
      rfl

theorem splitFuel_partition {m : Int} :
    ∀ fuel t cs, splitTranscriptFuel fuel t m = some cs →
      (∀ w ∈ splitSepsFuel fuel t m, ∀ c ∈ w, isPySpace c = true) ∧
        joinAlt cs (splitSepsFuel fuel t m) = t := by
  intro fuel
  induction fuel with
  | zero => intro t cs h; simp [splitTranscriptFuel] at h
  | succ n ih =>
    intro t cs h
    by_cases ht : t = []
    · subst ht
      rw [show splitTranscriptFuel (n + 1) ([] : List Char) m = some [] from rfl] at h
      injection h with h
      subst h
      rw [show splitSepsFuel (n + 1) ([] : List Char) m = [] from rfl]
      exact ⟨by simp, rfl⟩
    · simp only [splitTranscriptFuel, if_neg ht, Option.map_eq_some'] at h
      obtain ⟨cs₂, hrec, hcs⟩ := h
      obtain ⟨hsp, hjoin⟩ := ih _ _ hrec
      rw [splitSepsFuel, if_neg ht]
      constructor
      · intro w hw c hc
        rcases List.mem_cons.mp hw with hw | hw
        · subst hw; exact List.mem_takeWhile_imp hc
        · exact hsp w hw c hc
      · rw [← hcs, joinAlt, hjoin, splitStepPiece, splitStepRest, pyLstrip,
          List.append_assoc, List.takeWhile_append_dropWhile, pySlice_append]

theorem splitFuel_chunk_le {m : Int} (hm : 1 ≤ m) :
    ∀ fuel t cs, splitTranscriptFuel fuel t m = some cs →
      ∀ c ∈ cs, c.length ≤ m.toNat := by
  intro fuel
  induction fuel with
  | zero => intro t cs h; simp [splitTranscriptFuel] at h
  | succ n ih =>
    intro t cs h
    by_cases ht : t = []
    · subst ht
      rw [show splitTranscriptFuel (n + 1) ([] : List Char) m = some [] from rfl] at h
      injection h with h
      subst h
      intro c hc
      simp at hc
    · simp only [splitTranscriptFuel, if_neg ht, Option.map_eq_some'] at h
      obtain ⟨cs₂, hrec, hcs⟩ := h
      intro c hc
      rw [← hcs] at hc
      rcases List.mem_cons.mp hc with hc | hc
      · subst hc
        have h1 : (splitStepPiece t m).length ≤ pyIdx t (lastSplitOf t m) := by
          rw [splitStepPiece, pySliceTo, List.length_take]
          exact min_le_left _ _
        refine le_trans h1 ?_
        cases hr : rfind2 (pySliceTo t m) with
        | none =>
          have : lastSplitOf t m = m := by simp [lastSplitOf, hr]
          rw [this, pyIdx, if_pos (by omega)]
        | some i =>
          have hi := rfind2_lt_length hr
          have h2 : (pySliceTo t m).length ≤ m.toNat := by
            rw [pySliceTo, List.length_take, pyIdx, if_pos (show (0:Int) ≤ m by omega)]
            exact min_le_left _ _
          have hidx : pyIdx t (lastSplitOf t m) = i := by
            have : lastSplitOf t m = (i : Int) := by simp [lastSplitOf, hr]
            rw [this, pyIdx, if_pos (by omega)]
            simp
          rw [hidx]
          omega
      · exact ih _ _ hrec c hc

/-! ### Helper lemmas about the dispatcher and the reassembly join -/

theorem pyJoin_eq_intercalate (sep : List Char) :
    ∀ ts : List (List Char), pyJoin sep ts = List.intercalate sep ts := by
  intro ts
  induction ts with
  | nil => rfl
  | cons t ts ih =>
    cases ts with
    | nil => simp [pyJoin, List.intercalate]
    | cons t2 ts =>
      rw [pyJoin, ih, List.intercalate, List.intercalate, List.intersperse_cons₂,
        List.flatten_cons, List.flatten_cons, List.append_assoc]

theorem pyJoinOpt_map_some (sep : List Char) (ts : List (List Char)) :
    pyJoinOpt sep (ts.map some) = .ok (pyJoin sep ts) := by
  rw [pyJoinOpt, if_pos]
  · have hmap : (ts.map some).map (fun o => o.getD []) = ts := by
      induction ts with
      | nil => rfl
      | cons a ts ih => simp only [List.map_cons, ih, Option.getD_some]
    rw [hmap]
  · simp [List.all_eq_true]

theorem dispatchLoop_all_ok (h : Nat → List Char) (arr : List Nat)
    (table : List (Option (List Char))) :
    dispatchLoop (fun j => .ok (h j)) arr table =
      .ok (arr.foldl (fun tb j => tb.set j (some (h j))) table) := by
  induction arr generalizing table with
  | nil => rfl
  | cons j arr ih =>
    rw [List.foldl_cons]
    exact ih _

theorem foldl_set_length (h : Nat → List Char) (arr : List Nat)
    (table : List (Option (List Char))) :
    (arr.foldl (fun tb j => tb.set j (some (h j))) table).length = table.length := by
  induction arr generalizing table with
  | nil => rfl
  | cons j arr ih =>
    rw [List.foldl_cons, ih, List.length_set]

theorem foldl_set_getElem? (h : Nat → List Char) (arr : List Nat)
    (table : List (Option (List Char))) (i : Nat) (hi : i < table.length) :
    (arr.foldl (fun tb j => tb.set j (some (h j))) table)[i]? =
      if i ∈ arr then some (some (h i)) else table[i]? := by
  induction arr generalizing table with
  | nil => simp
  | cons j arr ih =>
    rw [List.foldl_cons, ih _ (by rw [List.length_set]; exact hi)]
    by_cases hmem : i ∈ arr
    · simp [hmem]
    · by_cases hij : i = j
      · subst hij
        simp [hmem, List.getElem?_set_self hi]
      · simp [hmem, hij, List.getElem?_set_ne (fun hc => hij hc.symm)]

theorem table_after_perm (h : Nat → List Char) (n : Nat) (arr : List Nat)
    (hp : arr.Perm (List.range n)) :
    arr.foldl (fun tb j => tb.set j (some (h j))) (List.replicate n none) =
      ((List.range n).map h).map some := by
  apply List.ext_getElem?
  intro i
  by_cases hi : i < n
  · rw [foldl_set_getElem? h arr _ i (by rw [List.length_replicate]; exact hi)]
    rw [if_pos (hp.mem_iff.mpr (List.mem_range.mpr hi))]
    rw [List.getElem?_map, List.getElem?_map, List.getElem?_range hi]
    rfl
  · have h1 : (((List.range n).map h).map some).length ≤ i := by
      rw [List.length_map, List.length_map, List.length_range]
      omega
    have h2 : (arr.foldl (fun tb j => tb.set j (some (h j))) (List.replicate n none)).length ≤ i := by
      rw [foldl_set_length, List.length_replicate]
      omega
    rw [List.getElem?_eq_none h1, List.getElem?_eq_none h2]

theorem dispatchLoop_first_error (f : Nat → Except Exc (List Char))
    (pre post : List Nat) (j : Nat) (e : Exc)
    (hpre : ∀ k ∈ pre, ∃ t, f k = .ok t) (hj : f j = .error e) :
    ∀ table, dispatchLoop f (pre ++ j :: post) table = .error e := by
  induction pre with
  | nil =>
    intro table
    rw [List.nil_append, dispatchLoop, hj]
  | cons k pre ih =>
    intro table
    obtain ⟨t, ht⟩ := hpre k (List.mem_cons_self k pre)
    rw [List.cons_append, dispatchLoop, ht]
    exact ih (fun k hk => hpre k (List.mem_cons_of_mem _ hk)) _

theorem process_chunks_all_ok (chunks : List (List Char))
    (g : Nat → List Char → List Char) (arr : List Nat)
    (hp : arr.Perm (List.range chunks.length)) (hne : chunks ≠ []) :
    process_chunks chunks (fun i c => .ok (g i c)) arr =
      .ok (pyJoin resultSep
        ((List.range chunks.length).map (fun i => g i (chunks.getD i [])))) := by
  have hlen : ¬chunks.length = 0 := fun h => hne (List.length_eq_zero.mp h)
  have hd := dispatchLoop_all_ok (fun j => g j (chunks.getD j [])) arr
    (List.replicate chunks.length none)
  rw [table_after_perm (fun j => g j (chunks.getD j [])) chunks.length arr hp] at hd
  simp only [process_chunks, if_neg hlen, hd]
  exact pyJoinOpt_map_some resultSep _

theorem splitFuel_stuck_zero : ∀ fuel, splitTranscriptFuel fuel ['a'] 0 = none := by
  intro fuel
  induction fuel with
  | zero => rfl
  | succ n ih =>
    rw [splitTranscriptFuel, if_neg (by decide),
      show splitStepRest ['a'] 0 = ['a'] from rfl, ih]
    rfl

/-! ### Claim theorems -/

/-- Claim C1 (corrected).  Re-joining the chunks of `split_transcript`
with the fixed paragraph delimiter does not reproduce the transcript:
a mid-paragraph cut consumes no delimiter at all ("ab" with max 1
splits into "a", "b" with nothing in between), so re-inserting a
delimiter manufactures text - with or without trimming the chunk
edges. -/
theorem claimC1_counterexample :
    split_transcript ['a', 'b'] 1 = some [['a'], ['b']] ∧
      pyJoin nl2 [['a'], ['b']] ≠ ['a', 'b'] ∧
      pyJoin nl2 ([['a'], ['b']].map pyStrip) ≠ ['a', 'b'] := by decide

/-- Claim C1 (corrected, amended form).  The chunks of
`split_transcript` do partition the transcript, but the text consumed
between consecutive chunks is the (possibly empty, possibly longer than
a single delimiter) whitespace run that `lstrip` removed there, given
by `split_seps`: interleaving chunks with those whitespace runs
reproduces the transcript exactly, and every consumed run is pure
whitespace. -/
theorem claimC1_amended_partition (t : List Char) (m : Int) (cs : List (List Char))
    (hs : split_transcript t m = some cs) :
    (∀ w ∈ split_seps t m, ∀ c ∈ w, isPySpace c = true) ∧
      joinAlt cs (split_seps t m) = t :=
  splitFuel_partition (t.length + 1) t cs hs

/-- Witness for C1's amended partition theorem at a concrete input. -/
theorem claimC1_amended_partition_witness :
    joinAlt [['a'], ['b']] (split_seps ['a', 'b'] 1) = ['a', 'b'] :=
  (claimC1_amended_partition ['a', 'b'] 1 [['a'], ['b']] (by decide)).2

/-- Claim C2 (confirmed).  With every backend call succeeding, the
document produced by `process_chunks` is the same for any two arrival
orders of the completions, and equals the per-index results joined by
ascending chunk index: completion order never leaks into the output. -/
theorem claimC2_order_independent (chunks : List (List Char))
    (g : Nat → List Char → List Char) (a1 a2 : List Nat)
    (h1 : a1.Perm (List.range chunks.length))
    (h2 : a2.Perm (List.range chunks.length)) (hne : chunks ≠ []) :
    process_chunks chunks (fun i c => .ok (g i c)) a1 =
        process_chunks chunks (fun i c => .ok (g i c)) a2 ∧
      process_chunks chunks (fun i c => .ok (g i c)) a1 =
        .ok (pyJoin resultSep
          ((List.range chunks.length).map (fun i => g i (chunks.getD i [])))) := by
  constructor
  · rw [process_chunks_all_ok chunks g a1 h1 hne,
      process_chunks_all_ok chunks g a2 h2 hne]
  · exact process_chunks_all_ok chunks g a1 h1 hne

/-- Witness for C2 at two concrete arrival orders of two chunks. -/
theorem claimC2_witness :
    process_chunks [['a'], ['b']] (fun i c => .ok (idFmt i c)) [1, 0] =
        process_chunks [['a'], ['b']] (fun i c => .ok (idFmt i c)) [0, 1] ∧
      process_chunks [['a'], ['b']] (fun i c => .ok (idFmt i c)) [1, 0] =
        .ok (pyJoin resultSep
          ((List.range ([['a'], ['b']] : List (List Char)).length).map
            (fun i => idFmt i ([['a'], ['b']].getD i [])))) :=
  claimC2_order_independent [['a'], ['b']] idFmt [1, 0] [0, 1]
    (by decide) (by decide) (by decide)

/-- Claim C3 (corrected).  On a backend failure the dispatcher neither
wraps the error in any `PartialRunFailure`-like value nor records it in
the results table: the run result is the bare provider error (the same
value whichever chunk failed, so it references no chunk index), the
table keeps `None` in the failed slot - failures are never stored - and
collection stops at the first failed future, leaving later slots
unwritten. -/
theorem claimC3_counterexample :
    process_chunks [['a'], ['b'], ['c']] stubFail1 [0, 1, 2] =
        .error (.backend "rate limited".toList) ∧
      process_chunks_table [['a'], ['b'], ['c']] stubFail1 [0, 1, 2] =
        [some ['a'], none, none] ∧
      process_chunks [['a'], ['b'], ['c']] stubFail0 [0, 1, 2] =
        .error (.backend "rate limited".toList) :=
  ⟨rfl, rfl, rfl⟩

/-- Claim C3 (corrected, amended form).  If the workers arriving before
some failing worker all succeeded and that worker's backend call failed
with error `e`, then `process_chunks` resolves to exactly `e` - the raw
provider error re-raised by `completed.result()` - and never to a
document.  No index information is attached and nothing is converted
after the remaining workers finish. -/
theorem claimC3_amended_failure (chunks : List (List Char))
    (f : Nat → List Char → Except Exc (List Char)) (pre post : List Nat)
    (j : Nat) (e : Exc) (hne : chunks ≠ [])
    (hpre : ∀ k ∈ pre, ∃ t, f k (chunks.getD k []) = .ok t)
    (hj : f j (chunks.getD j []) = .error e) :
    process_chunks chunks f (pre ++ j :: post) = .error e := by
  have hlen : ¬chunks.length = 0 := fun h => hne (List.length_eq_zero.mp h)
  rw [process_chunks, if_neg hlen,
    dispatchLoop_first_error (fun k => f k (chunks.getD k [])) pre post j e hpre hj]

/-- Witness for C3's amended failure theorem: chunk 1 of 3 fails with a
rate-limit error and the whole run resolves to that raw error. -/
theorem claimC3_amended_failure_witness :
    process_chunks [['a'], ['b'], ['c']] stubFail1 ([0] ++ 1 :: [2]) =
      .error (.backend "rate limited".toList) :=
  claimC3_amended_failure [['a'], ['b'], ['c']] stubFail1 [0] [2] 1
    (.backend "rate limited".toList) (by decide)
    (fun k hk => by
      simp only [List.mem_singleton] at hk
      subst hk
      exact ⟨['a'], rfl⟩)
    rfl

/-- Claim C4 (code bug).  `split_transcript("", M)` is indeed the empty
chunk sequence and `str.join` on an empty table is indeed the empty
string, but the pipeline does not short-circuit: with zero chunks,
line 43 constructs `ThreadPoolExecutor(max_workers=min(5, 0))`, and
CPython rejects `max_workers = 0` with `ValueError`, so an empty
transcript crashes the run instead of returning the empty string. -/
theorem claimC4_empty_pipeline_bug :
    split_transcript [] 8000 = some [] ∧
      pyJoinOpt resultSep [] = .ok [] ∧
      process_chunks [] stubOk [] = .error .valueError :=
  ⟨rfl, rfl, rfl⟩

/-- Claim C5 (corrected).  A transcript that is one oversized paragraph
("abcdef", no delimiter, length 6 > max 4) is cut at exactly
`max_chars` characters: the chunks have lengths 4 and 2, so no chunk's
length equals the paragraph's length 6, contradicting the claim's
exception clause. -/
theorem claimC5_counterexample :
    split_transcript "abcdef".toList 4 = some [['a', 'b', 'c', 'd'], ['e', 'f']] ∧
      rfind2 "abcdef".toList = none ∧
      ("abcdef".toList).length = 6 ∧
      (['a', 'b', 'c', 'd'] : List Char).length = 4 ∧
      (['e', 'f'] : List Char).length = 2 := by decide

/-- Claim C5 (corrected, amended form).  The size bound holds with no
exception: for a positive bound, every chunk returned by
`split_transcript` has length at most `max_chars`; an oversized
paragraph is cut at exactly `max_chars`, never kept whole. -/
theorem claimC5_amended_size_bound (t : List Char) (m : Int) (cs : List (List Char))
    (hm : 1 ≤ m) (hs : split_transcript t m = some cs) :
    ∀ c ∈ cs, c.length ≤ m.toNat :=
  splitFuel_chunk_le hm (t.length + 1) t cs hs

/-- Witness for C5's amended size bound at a concrete chunk. -/
theorem claimC5_amended_size_bound_witness :
    (['a', 'b', 'c', 'd'] : List Char).length ≤ (4 : Int).toNat :=
  claimC5_amended_size_bound "abcdef".toList 4 [['a', 'b', 'c', 'd'], ['e', 'f']]
    (by decide) (by decide) ['a', 'b', 'c', 'd'] (by decide)

/-- Claim C6 (corrected).  A non-empty transcript shorter than
`max_chars` is still split whenever it contains a paragraph delimiter:
"a\n\nb" (length 4 < 100) yields two chunks, not one chunk containing
everything, because the window search always splits at the last
delimiter found, fitting or not. -/
theorem claimC6_counterexample :
    split_transcript "a\n\nb".toList 100 = some [['a'], ['b']] ∧
      (("a\n\nb".toList).length : Int) < 100 ∧
      ([['a'], ['b']] : List (List Char)).length = 2 := by decide

/-- Claim C6 (corrected, amended form).  A non-empty transcript shorter
than `max_chars` yields exactly one chunk containing the entire
transcript precisely when it contains no paragraph delimiter. -/
theorem claimC6_amended_single_chunk (t : List Char) (m : Int) (ht : t ≠ [])
    (hm : 1 ≤ m) (hlen : (t.length : Int) < m) (hnd : rfind2 t = none) :
    split_transcript t m = some [t] := by
  have h0 : 0 < t.length := List.length_pos.mpr ht
  have hm0 : (0 : Int) ≤ m := by omega
  have hidx : pyIdx t m = m.toNat := by rw [pyIdx, if_pos hm0]
  have hwin : pySliceTo t m = t := by
    rw [pySliceTo, hidx]
    exact List.take_of_length_le (by omega)
  have hls : lastSplitOf t m = m := by
    rw [lastSplitOf, hwin, hnd]
  have hpiece : splitStepPiece t m = t := by
    rw [splitStepPiece, hls, pySliceTo, hidx]
    exact List.take_of_length_le (by omega)
  have hrest : splitStepRest t m = [] := by
    rw [splitStepRest, hls, pySliceFrom, hidx, List.drop_eq_nil_of_le (by omega)]
    rfl
  obtain ⟨k, hk⟩ : ∃ k, t.length = k + 1 := ⟨t.length - 1, by omega⟩
  rw [split_transcript, hk, splitTranscriptFuel, if_neg ht, hrest, hpiece,
    show splitTranscriptFuel (k + 1) ([] : List Char) m = some [] from rfl,
    Option.map_some']

/-- Witness for C6's amended single-chunk theorem. -/
theorem claimC6_amended_single_chunk_witness :
    split_transcript ['h', 'i'] 3 = some [['h', 'i']] :=
  claimC6_amended_single_chunk ['h', 'i'] 3 (by decide) (by decide)
    (by decide) (by decide)

/-- Claim C7 (corrected).  No `ChunkingImpossible` (or any other error)
is raised for a non-positive `max_chars`: at `max_chars = 0` the
splitter's loop simply never finishes (even the fuel that always
suffices for positive bounds yields no result), and at a positive bound
it returns normally, so no configuration error exists at all. -/
theorem claimC7_counterexample :
    split_transcript ['a'] 0 = none ∧
      split_transcript ['a'] 1 = some [['a']] := by decide

/-- Claim C7 (corrected, amended form).  The code defines no
`ChunkingImpossible` error and never fails fast: for `max_chars = 0`
on the one-character transcript "a" the loop runs forever (no fuel
yields a result - line 27 leaves the transcript unchanged because
`last_split = 0` and there is no leading whitespace to strip), while
for every positive `max_chars` the splitter returns normally. -/
theorem claimC7_amended_no_error :
    (∀ fuel, splitTranscriptFuel fuel ['a'] 0 = none) ∧
      ∀ (t : List Char) (m : Int), 1 ≤ m → (split_transcript t m).isSome :=
  ⟨splitFuel_stuck_zero,
    fun t m hm => splitFuel_isSome hm (t.length + 1) t (by omega)⟩

/-- Witness for C7's amended theorem at concrete fuel and input. -/
theorem claimC7_amended_no_error_witness :
    splitTranscriptFuel 50 ['a'] 0 = none ∧
      (split_transcript ['a', 'b'] 1).isSome :=
  ⟨claimC7_amended_no_error.1 50,
    claimC7_amended_no_error.2 ['a', 'b'] 1 (by decide)⟩

/-- Claim C8 (corrected).  The worker bound is not caller-supplied: it
is the constant 5 hardcoded on line 43, and with 3 chunks a state with
3 calls in flight is reachable, exceeding `min(w, chunk_count)` for a
supposed caller-supplied bound of `w = 2`. -/
theorem claimC8_counterexample :
    dispatcherReach 3 ⟨0, 0⟩ ⟨3, 3⟩ ∧ ¬((3 : Nat) ≤ min 2 3) := by
  constructor
  · have s1 : PoolStep (min 5 3) 3 ⟨0, 0⟩ ⟨1, 1⟩ :=
      PoolStep.start ⟨0, 0⟩ (by decide) (by decide)
    have s2 : PoolStep (min 5 3) 3 ⟨1, 1⟩ ⟨2, 2⟩ :=
      PoolStep.start ⟨1, 1⟩ (by decide) (by decide)
    have s3 : PoolStep (min 5 3) 3 ⟨2, 2⟩ ⟨3, 3⟩ :=
      PoolStep.start ⟨2, 2⟩ (by decide) (by decide)
    exact Relation.ReflTransGen.tail
      (Relation.ReflTransGen.tail (Relation.ReflTransGen.single s1) s2) s3
  · decide

/-- Claim C8 (corrected, amended form).  In every state the dispatcher
can reach, the number of backend calls in flight never exceeds
`min(5, chunk_count)` - the bound the code actually passes to the
executor - and in particular never exceeds the chunk count. -/
theorem claimC8_amended_bound (n : Nat) (s : PoolState)
    (h : dispatcherReach n ⟨0, 0⟩ s) : s.running ≤ min 5 n := by
  have h2 : Relation.ReflTransGen (PoolStep (min 5 n) n) ⟨0, 0⟩ s := h
  clear h
  induction h2 with
  | refl => simp
  | tail hab step ih =>
    cases step with
    | start hs hr => exact Nat.succ_le_of_lt hr
    | finish hr => exact le_trans (Nat.sub_le _ _) ih

/-- Witness for C8's amended bound at the initial state. -/
theorem claimC8_amended_bound_witness :
    (⟨0, 0⟩ : PoolState).running ≤ min 5 4 :=
  claimC8_amended_bound 4 ⟨0, 0⟩ Relation.ReflTransGen.refl

/-- Claim C9 (confirmed).  On a fully populated results table the join
of line 52 concatenates the entries in index order with the literal
separator between consecutive entries and none at the ends - that is,
it equals `List.intercalate` with that separator - and it is a pure
function of the table. -/
theorem claimC9_join_format (ts : List (List Char)) :
    pyJoinOpt resultSep (ts.map some) =
      .ok (List.intercalate "\n\n---\n\n".toList ts) := by
  rw [pyJoinOpt_map_some, pyJoin_eq_intercalate]
  rfl

/-- Claim C10 (confirmed).  For every transcript and every
`max_chars >= 1` the splitter's loop terminates: each iteration
strictly shortens the remaining transcript, so fuel `length + 1`
always produces a result. -/
theorem claimC10_termination (t : List Char) (m : Int) (hm : 1 ≤ m) :
    (split_transcript t m).isSome :=
  splitFuel_isSome hm (t.length + 1) t (by omega)

/-- Witness for C10's termination theorem at a concrete transcript. -/
theorem claimC10_termination_witness :
    (split_transcript "hi\n\nthere".toList 4).isSome :=
  claimC10_termination "hi\n\nthere".toList 4 (by decide)
